import Mathlib

/-!
Shallow embedding of `deepsignal_plant/call_modifications.py` and proofs of
the pipeline's specified properties: per-record prediction derivation
(`_call_mods`), the feature-file reader's batching (`_read_features_file`),
worker-pool sizing, GPU round-robin assignment (`_get_gpus`), startup path
validation (`call_mods`), and the sentinel fan-out protocol of the queue
consumers (`_call_mods_q` / `_read_features_fast5s_q`).

Numbers that Python handles as floats are modelled as rationals; the
classifier (an external torch model) is an abstract function from a sample
record to its two raw outputs; `base2code_dna`/`code2base_dna` (imported
from `utils.process_utils`, outside this file) are abstract parameters.
-/

namespace DeepsignalPlant

/-! ### Rounding: Python `round(x, 6)` on rationals (banker's rounding) -/

/-- Python `round(y)` for a scalar: round half to even, modelled on `ℚ`. -/
def pyroundInt (y : ℚ) : ℤ :=
  if y - ⌊y⌋ < 1/2 then ⌊y⌋
  else if 1/2 < y - ⌊y⌋ then ⌊y⌋ + 1
  else if ⌊y⌋ % 2 = 0 then ⌊y⌋ else ⌊y⌋ + 1

/-- Python `round(x, 6)` on rationals. -/
def pyround6 (x : ℚ) : ℚ :=
  ((pyroundInt (x * 1000000) : ℚ)) / 1000000

theorem pyroundInt_intCast (m : ℤ) : pyroundInt (m : ℚ) = m := by
  have h0 : ((m : ℚ) - ⌊(m : ℚ)⌋) = 0 := by simp
  simp [pyroundInt, h0]

/-- If `x` already has (at most) six decimal places then `round(x, 6) = x`. -/
theorem pyround6_eq_self {x : ℚ} (m : ℤ) (hm : x * 1000000 = (m : ℚ)) :
    pyround6 x = x := by
  have h : pyroundInt (x * 1000000) = m := by rw [hm]; exact pyroundInt_intCast m
  have : ((pyroundInt (x * 1000000) : ℚ)) = x * 1000000 := by rw [h, ← hm]
  rw [pyround6, this]
  field_simp

/-! ### `torch.max(·, 1)` index: index of the first maximal element -/

/-- Index of the first maximal element of a list, as returned by
`torch.max(vlogits.data, 1)` along a row (`0` on an empty row). -/
def torchMaxIdx : List ℚ → Nat
  | [] => 0
  | a :: rest =>
    match rest with
    | [] => 0
    | _ :: _ =>
      let j := torchMaxIdx rest
      if rest.getD j 0 > a then j + 1 else 0

theorem torchMaxIdx_pair (a b : ℚ) :
    torchMaxIdx [a, b] = if b > a then 1 else 0 := by
  simp [torchMaxIdx]

/-! ### Data model: sample records and prediction records -/

/-- One sample record of a feature batch, as parsed by
`_read_features_file` / `_read_features_from_fast5s`: the joined
six identification fields, the k-mer (base codes), the per-base
signal statistics and the ground-truth label. -/
structure SampleRec where
  sampleinfo : String
  kmers : List Nat
  base_means : List ℚ
  base_stds : List ℚ
  base_signal_lens : List ℚ
  k_signals : List (List ℚ)
  label : Nat
  deriving DecidableEq

/-- One prediction record, i.e. the components of the tab-joined
`pred_str` line built in `_call_mods` (lines 176-188 of the source):
sample info, the two normalized probabilities, the predicted label,
and the trimmed context sequence. -/
structure PredRec where
  sampleinfo : String
  prob0 : ℚ
  prob1 : ℚ
  label : Nat
  kseq : List Char
  deriving DecidableEq

/-- Python slice `l[s:e]` for integer indices `0 ≤ s`, `s ≤ e`. -/
def pySlice (l : List Char) (s e : ℤ) : List Char :=
  (l.drop s.toNat).take (e.toNat - s.toNat)

/-- The body of the inner loop of `_call_mods` for one record `r`:
compute the two normalized probabilities from the classifier's raw
outputs `model r`, take the argmax as the label, and trim the k-mer
to the 5-base window around its midpoint. -/
def predOne (model : SampleRec → ℚ × ℚ) (code2base_dna : Nat → Char)
    (r : SampleRec) : PredRec :=
  let ab := model r
  let prob_0 := ab.1
  let prob_1 := ab.2
  let prob_0_norm := pyround6 (prob_0 / (prob_0 + prob_1))
  let prob_1_norm := pyround6 (1 - prob_0_norm)
  let predicted := torchMaxIdx [prob_0, prob_1]
  let b_idx_kmer := r.kmers.map code2base_dna
  let center_idx : ℤ := (b_idx_kmer.length : ℤ) / 2
  let bkmer_start : ℤ := if center_idx - 2 ≥ 0 then center_idx - 2 else 0
  let bkmer_end : ℤ :=
    if center_idx + 3 ≤ (b_idx_kmer.length : ℤ) then center_idx + 3
    else (b_idx_kmer.length : ℤ)
  { sampleinfo := r.sampleinfo
    prob0 := prob_0_norm
    prob1 := prob_1_norm
    label := predicted
    kseq := pySlice b_idx_kmer bkmer_start bkmer_end }

/-- Per-sub-batch accuracy, `metrics.accuracy_score` of the argmax
predictions against the ground-truth labels. -/
def accuracyScore (model : SampleRec → ℚ × ℚ) (sub : List SampleRec) : ℚ :=
  ((sub.countP fun r => torchMaxIdx [(model r).1, (model r).2] = r.label : ℕ) : ℚ)
    / (sub.length : ℚ)

/-- The sub-batching loop of `_call_mods`: `for i in np.arange(0, n,
batch_size)` slices the feature batch into `[i : i+batch_size]`
sub-batches, scores each, and appends one prediction per record.
Returns the prediction list, the per-sub-batch accuracies, and the
sub-batch count.  Meaningful for `batch_size ≥ 1` (with
`batch_size = 0`, `np.arange` itself would raise). -/
def callModsGo (model : SampleRec → ℚ × ℚ) (code2base_dna : Nat → Char)
    (batch_size : Nat) : List SampleRec → List PredRec × List ℚ × Nat
  | [] => ([], [], 0)
  | r :: rest =>
    let b_batch := r :: rest.take (batch_size - 1)
    let preds := b_batch.map (predOne model code2base_dna)
    let acc := accuracyScore model b_batch
    let out := callModsGo model code2base_dna batch_size (rest.drop (batch_size - 1))
    (preds ++ out.1, acc :: out.2.1, out.2.2 + 1)
termination_by l => l.length
decreasing_by
  simp only [List.length_cons]
  exact Nat.lt_succ_of_le (List.length_drop _ rest ▸ Nat.sub_le _ _)

/-- `_call_mods(features_batch, model, batch_size)`: scores a feature
batch in sub-batches of at most `batch_size` records and returns
`(pred_str, accuracy, batch_num)`; `accuracy` is the unweighted mean of
the per-sub-batch accuracies (`0` when there were none). -/
def call_mods (model : SampleRec → ℚ × ℚ) (code2base_dna : Nat → Char)
    (features_batch : List SampleRec) (batch_size : Nat) :
    List PredRec × ℚ × Nat :=
  let out := callModsGo model code2base_dna batch_size features_batch
  let accuracy :=
    if out.2.1.length > 0 then out.2.1.sum / (out.2.1.length : ℚ) else 0
  (out.1, accuracy, out.2.2)

/-! ### The feature-file reader `_read_features_file` -/

/-- One input line of a pre-extracted feature file, already split into
its parsed fields; `rid` is `words[4]`, the read identifier. -/
structure FLine where
  rid : Nat
  sample : SampleRec
  deriving DecidableEq

/-- A message on the feature-batch queue: either a feature batch
(here kept as the list of source lines it came from) or the
`"kill"` sentinel. -/
inductive QMsg where
  | batch (b : List FLine)
  | kill
  deriving DecidableEq

/-- The `for line in infile` loop of `_read_features_file`, starting
after the first line has been consumed: `ridPre` is `readid_pre`,
`acc` the current accumulator, `rnum` the count of completed
read-identifier runs, `F` the transfer-batch size `f5_batch_size`.
Returns the ordered sequence of queue messages the reader emits. -/
def rffLoop (F : Nat) (ridPre : Nat) (acc : List FLine) (rnum : Nat) :
    List FLine → List QMsg
  | [] =>
    (if acc.length > 0 then [QMsg.batch acc] else []) ++ [QMsg.kill]
  | l :: rest =>
    if l.rid ≠ ridPre then
      if (rnum + 1) % F = 0 then
        QMsg.batch acc :: rffLoop F l.rid [l] (rnum + 1) rest
      else
        rffLoop F l.rid (acc ++ [l]) (rnum + 1) rest
    else
      rffLoop F ridPre (acc ++ [l]) rnum rest

/-- `_read_features_file(features_file, features_batch_q, f5_batch_size)`:
returns the ordered list of messages put on `features_batch_q` and a
flag telling whether the reader terminated normally.  On an empty
file the unguarded `line = next(infile)` raises `StopIteration`
before anything is enqueued, modelled as `([], false)`. -/
def read_features_file (f5_batch_size : Nat) (lines : List FLine) :
    List QMsg × Bool :=
  match lines with
  | [] => ([], false)
  | l :: rest => (rffLoop f5_batch_size l.rid [l] 0 rest, true)

theorem length_dropWhile_le (p : α → Bool) (l : List α) :
    (l.dropWhile p).length ≤ l.length := by
  induction l with
  | nil => simp
  | cons a l ih =>
    by_cases h : p a
    · rw [List.dropWhile_cons_of_pos h]
      exact Nat.le_succ_of_le ih
    · rw [List.dropWhile_cons_of_neg (by simpa using h)]

/-- Split a line list into its maximal runs of consecutive lines
sharing a read identifier (the grouping `_read_features_file`
recognizes via `readid_pre`). -/
def splitRuns : List FLine → List (List FLine)
  | [] => []
  | l :: rest =>
    (l :: rest.takeWhile (fun x => x.rid = l.rid)) ::
      splitRuns (rest.dropWhile (fun x => x.rid = l.rid))
termination_by l => l.length
decreasing_by
  simp only [List.length_cons]
  exact Nat.lt_succ_of_le (length_dropWhile_le _ rest)

/-- Chunk a list into consecutive groups of `F` elements, the last
group possibly shorter (for `F = 0` this degenerates to singleton
groups; it is only used with `F ≥ 1`). -/
def chunksOf (F : Nat) : List α → List (List α)
  | [] => []
  | a :: l => (a :: l.take (F - 1)) :: chunksOf F (l.drop (F - 1))
termination_by l => l.length
decreasing_by
  simp only [List.length_cons]
  exact Nat.lt_succ_of_le (List.length_drop _ l ▸ Nat.sub_le _ _)

/-! ### Worker-pool sizing in `_call_mods_from_fast5s_gpu` -/

/-- The pool-size correction at the top of `_call_mods_from_fast5s_gpu`:
floors `nproc_gpu` at `1`, then, if `nproc <= nproc_gpu + 1`, raises
`nproc` to `nproc_gpu + 1 + 1`.  Returns the effective
`(nproc, nproc_gpu)` used to size the worker pools spawned below it. -/
def effectiveProcsGpu (nproc nproc_gpu : ℤ) : ℤ × ℤ :=
  let ng := if nproc_gpu < 1 then 1 else nproc_gpu
  let np2 := if nproc ≤ ng + 1 then ng + 1 + 1 else nproc
  (np2, ng)

/-! ### GPU discovery and round-robin assignment -/

/-- `_get_gpus()`: `list(range(num_gpus))` when GPUs exist, else `[0]`,
repeated 1000 times (`gpulist * 1000`). -/
def get_gpus (num_gpus : Nat) : List Nat :=
  let gpulist := if num_gpus > 0 then List.range num_gpus else [0]
  (List.replicate 1000 gpulist).flatten

/-- Device id handed to the `i`-th scorer worker in spawn order
(`gpulist[gpuindex]` with `gpuindex` incremented per spawn);
`none` models the `IndexError` raised when the index runs past
the end of the repeated list. -/
def gpuOfWorker (num_gpus i : Nat) : Option Nat :=
  (get_gpus num_gpus).get? i

/-! ### Startup validation in `call_mods` -/

/-- The observable startup actions of `call_mods`, in program order. -/
inductive StartEvent where
  | checkModelPath
  | checkInputPath
  | spawnWorker (k : Nat)
  deriving DecidableEq

/-- The startup prefix of `call_mods(args)`: checks that the model path
exists (else `ValueError`), then that the input path exists (else
`ValueError`); only after both checks does it go on to spawn worker
processes (abstracted as `workerPlan`).  Returns the events performed
and `some errmsg` when a `ValueError` was raised. -/
def call_mods_startup (path_exists : String → Bool)
    (model_path input_path : String) (workerPlan : List Nat) :
    List StartEvent × Option String :=
  if ¬ path_exists model_path then
    ([StartEvent.checkModelPath], some "--model_path is not set right!")
  else if ¬ path_exists input_path then
    ([StartEvent.checkModelPath, StartEvent.checkInputPath],
      some "--input_path does not exist!")
  else
    ([StartEvent.checkModelPath, StartEvent.checkInputPath] ++
      workerPlan.map StartEvent.spawnWorker, none)

/-! ### The sentinel ("kill") fan-out protocol

`_call_mods_q` (on the feature-batch queue) and
`_read_features_fast5s_q` (on the fast5s queue) share the same
consumer loop: dequeue a message; if it is the `"kill"` sentinel,
re-push it once and break; otherwise process it and continue.  We
model K sibling consumers of one FIFO queue as a transition system
and prove the fan-out properties. -/

/-- A message on a shared work queue: a data payload or the sentinel. -/
inductive SMsg where
  | data (payload : Nat)
  | kill
  deriving DecidableEq

/-- The phase of one consumer: still looping (`running`), has dequeued
the sentinel but not yet re-pushed it (`reposting`, the point between
`q.get()` returning `"kill"` and the `q.put("kill")` on the next
line), or exited its loop (`done`). -/
inductive WSt where
  | running
  | reposting
  | done
  deriving DecidableEq

/-- Global state: the FIFO queue contents (head = next dequeued), the
phase of each of the K consumers, and how many times each consumer
has re-pushed the sentinel. -/
structure SState where
  q : List SMsg
  ws : List WSt
  reposts : List Nat
  deriving DecidableEq

/-- One interleaving step of the consumer pool. -/
inductive SStep : SState → SState → Prop where
  | getData (s : SState) (i : Nat) (p : Nat) (rest : List SMsg)
      (hw : s.ws.get? i = some WSt.running)
      (hq : s.q = SMsg.data p :: rest) :
      SStep s ⟨rest, s.ws, s.reposts⟩
  | getKill (s : SState) (i : Nat) (rest : List SMsg)
      (hw : s.ws.get? i = some WSt.running)
      (hq : s.q = SMsg.kill :: rest) :
      SStep s ⟨rest, s.ws.set i WSt.reposting, s.reposts⟩
  | repostKill (s : SState) (i : Nat)
      (hw : s.ws.get? i = some WSt.reposting) :
      SStep s ⟨s.q ++ [SMsg.kill], s.ws.set i WSt.done,
        s.reposts.set i (s.reposts.getD i 0 + 1)⟩

/-- Reflexive-transitive closure of `SStep`. -/
inductive SSteps : SState → SState → Prop where
  | refl (s : SState) : SSteps s s
  | tail {s t u : SState} : SSteps s t → SStep t u → SSteps s u

/-- Initial state: the producers have finished — the queue holds some
data messages followed by exactly one sentinel — and all K consumers
are running, none having re-pushed yet. -/
def sInit (K : Nat) (datas : List Nat) : SState :=
  ⟨datas.map SMsg.data ++ [SMsg.kill], List.replicate K WSt.running,
    List.replicate K 0⟩

/-- Number of sentinels in the queue. -/
def killCount (q : List SMsg) : Nat := q.count SMsg.kill

/-- Number of consumers currently between dequeuing the sentinel and
re-pushing it. -/
def repostingCount (ws : List WSt) : Nat := ws.count WSt.reposting

/-- Termination measure: data messages still queued, plus 2 per
running consumer, plus 1 per mid-repost consumer. -/
def sMeasure (s : SState) : Nat :=
  (s.q.countP fun m => m ≠ SMsg.kill) + 2 * s.ws.count WSt.running +
    s.ws.count WSt.reposting

/-- The protocol invariant: sizes line up, exactly one sentinel is in
flight (queued or held by a mid-repost consumer), and a consumer's
re-push count is 1 exactly when it has exited. -/
def SInv (K : Nat) (s : SState) : Prop :=
  s.ws.length = K ∧ s.reposts.length = K ∧
    killCount s.q + repostingCount s.ws = 1 ∧
    ∀ i, i < K →
      s.reposts.getD i 0 = (if s.ws.get? i = some WSt.done then 1 else 0)

/-! ## Theorems -/

theorem pyround6_mul_int (x : ℚ) :
    pyround6 x * 1000000 = ((pyroundInt (x * 1000000) : ℤ) : ℚ) := by
  rw [pyround6]
  field_simp

theorem pyround6_one_sub_pyround6 (x : ℚ) :
    pyround6 (1 - pyround6 x) = 1 - pyround6 x := by
  apply pyround6_eq_self (1000000 - pyroundInt (x * 1000000))
  push_cast
  rw [sub_mul, one_mul, pyround6_mul_int]

/-- Claim C2: for classifier outputs `(a, b)` with `a, b > 0`, the
normalized probabilities `p0 = round(a/(a+b), 6)` and
`p1 = round(1 - p0, 6)` emitted in a prediction record satisfy
`p0 + p1 == 1` within `1e-6` (in fact exactly). -/
theorem claim_C2 (model : SampleRec → ℚ × ℚ) (code2base_dna : Nat → Char)
    (r : SampleRec) (a b : ℚ) (hab : model r = (a, b))
    (ha : 0 < a) (hb : 0 < b) :
    (predOne model code2base_dna r).prob0 +
        (predOne model code2base_dna r).prob1 = 1 ∧
      |(predOne model code2base_dna r).prob0 +
        (predOne model code2base_dna r).prob1 - 1| ≤ 1 / 1000000 := by
  have h0 : (predOne model code2base_dna r).prob0 =
      pyround6 (a / (a + b)) := by
    simp [predOne, hab]
  have h1 : (predOne model code2base_dna r).prob1 =
      pyround6 (1 - pyround6 (a / (a + b))) := by
    simp [predOne, hab]
  rw [h0, h1, pyround6_one_sub_pyround6]
  constructor
  · ring
  · have : pyround6 (a / (a + b)) + (1 - pyround6 (a / (a + b))) - 1 = 0 := by
      ring
    rw [this]
    norm_num

theorem claim_C2_witness :
    (predOne (fun _ => ((3 : ℚ), (1 : ℚ))) (fun _ => 'A')
        ⟨"", [], [], [], [], [], 0⟩).prob0 +
      (predOne (fun _ => ((3 : ℚ), (1 : ℚ))) (fun _ => 'A')
        ⟨"", [], [], [], [], [], 0⟩).prob1 = 1 :=
  (claim_C2 (fun _ => ((3 : ℚ), (1 : ℚ))) (fun _ => 'A')
    ⟨"", [], [], [], [], [], 0⟩ 3 1 rfl (by norm_num) (by norm_num)).1

/-- Claim C8: the emitted predicted label is the index of the first
maximum of the two raw classifier outputs: `0` when `a ≥ b`, `1`
when `b > a`. -/
theorem claim_C8 (model : SampleRec → ℚ × ℚ) (code2base_dna : Nat → Char)
    (r : SampleRec) (a b : ℚ) (hab : model r = (a, b)) :
    (predOne model code2base_dna r).label = if a ≥ b then 0 else 1 := by
  have h : (predOne model code2base_dna r).label = torchMaxIdx [a, b] := by
    simp [predOne, hab]
  rw [h, torchMaxIdx_pair]
  rcases le_or_lt b a with hba | hba
  · rw [if_neg (not_lt.mpr hba), if_pos hba]
  · rw [if_pos hba, if_neg (not_le.mpr hba)]

theorem claim_C8_witness :
    (predOne (fun _ => ((3 : ℚ), (1 : ℚ))) (fun _ => 'A')
        ⟨"", [], [], [], [], [], 0⟩).label = 0 := by
  have h := claim_C8 (fun _ => ((3 : ℚ), (1 : ℚ))) (fun _ => 'A')
    ⟨"", [], [], [], [], [], 0⟩ 3 1 rfl
  rw [h]
  norm_num

/-- Claim C4: the trimmed context sequence of a prediction record is
`seq[max(0, c-2) : min(L, c+3)]` with `c = ⌊L/2⌋`; for `L = 11` it
has 5 characters, and for `L = 3` it is the whole sequence. -/
theorem claim_C4 (model : SampleRec → ℚ × ℚ) (code2base_dna : Nat → Char)
    (r : SampleRec) (hL : 1 ≤ r.kmers.length) :
    (predOne model code2base_dna r).kseq =
      pySlice (r.kmers.map code2base_dna)
        (max 0 ((r.kmers.length : ℤ) / 2 - 2))
        (min (r.kmers.length : ℤ) ((r.kmers.length : ℤ) / 2 + 3)) ∧
    (r.kmers.length = 11 → (predOne model code2base_dna r).kseq.length = 5) ∧
    (r.kmers.length = 3 →
      (predOne model code2base_dna r).kseq = r.kmers.map code2base_dna) := by
  have hlen : (r.kmers.map code2base_dna).length = r.kmers.length :=
    List.length_map _ _
  have hs : (if ((r.kmers.length : ℤ) / 2 - 2 ≥ 0)
        then (r.kmers.length : ℤ) / 2 - 2 else 0) =
      max 0 ((r.kmers.length : ℤ) / 2 - 2) := by
    split_ifs with h
    · exact (max_eq_right h).symm
    · exact (max_eq_left (by omega)).symm
  have he : (if ((r.kmers.length : ℤ) / 2 + 3 ≤ (r.kmers.length : ℤ))
        then (r.kmers.length : ℤ) / 2 + 3 else (r.kmers.length : ℤ)) =
      min (r.kmers.length : ℤ) ((r.kmers.length : ℤ) / 2 + 3) := by
    split_ifs with h
    · exact (min_eq_right h).symm
    · exact (min_eq_left (by omega)).symm
  have hmain : (predOne model code2base_dna r).kseq =
      pySlice (r.kmers.map code2base_dna)
        (max 0 ((r.kmers.length : ℤ) / 2 - 2))
        (min (r.kmers.length : ℤ) ((r.kmers.length : ℤ) / 2 + 3)) := by
    simp only [predOne, hlen]
    rw [hs, he]
  refine ⟨hmain, ?_, ?_⟩
  · intro h11
    rw [hmain, h11]
    simp only [pySlice, List.length_take, List.length_drop, hlen, h11]
    norm_num
    decide
  · intro h3
    rw [hmain, h3]
    norm_num [pySlice]
    exact le_of_eq h3

theorem claim_C4_witness :
    (predOne (fun _ => ((3 : ℚ), (1 : ℚ))) (fun n => Char.ofNat n)
        ⟨"", [65, 66, 67], [], [], [], [], 0⟩).kseq =
      ['A', 'B', 'C'] := by
  have h := claim_C4 (fun _ => ((3 : ℚ), (1 : ℚ))) (fun n => Char.ofNat n)
    ⟨"", [65, 66, 67], [], [], [], [], 0⟩ (by decide)
  rw [h.2.2 rfl]
  decide

/-- Claim C5: in file-group GPU mode, whenever
`nproc ≤ nproc_gpu + 1` (after `nproc_gpu` is floored at 1), the
effective `nproc` is raised to at least `nproc_gpu + 2`; in
particular `nproc = 1, nproc_gpu = 2` is corrected to 4. -/
theorem claim_C5 (nproc nproc_gpu : ℤ)
    (h : nproc ≤ (if nproc_gpu < 1 then 1 else nproc_gpu) + 1) :
    (effectiveProcsGpu nproc nproc_gpu).1 ≥
        (effectiveProcsGpu nproc nproc_gpu).2 + 2 ∧
      effectiveProcsGpu 1 2 = (4, 2) := by
  constructor
  · simp only [effectiveProcsGpu]
    split_ifs at h ⊢ <;> omega
  · decide

theorem claim_C5_witness :
    (effectiveProcsGpu 1 2).1 ≥ (effectiveProcsGpu 1 2).2 + 2 :=
  (claim_C5 1 2 (by decide)).1

/-- Claim C9: `call_mods` raises a `ValueError` (and spawns no worker)
exactly when the model path or the input path does not exist; when
both exist the startup validation does not raise. -/
theorem claim_C9 (path_exists : String → Bool)
    (model_path input_path : String) (workerPlan : List Nat) :
    ((call_mods_startup path_exists model_path input_path workerPlan).2.isSome ↔
      (path_exists model_path = false ∨ path_exists input_path = false)) ∧
    ((call_mods_startup path_exists model_path input_path workerPlan).2.isSome →
      ∀ e ∈ (call_mods_startup path_exists model_path input_path workerPlan).1,
        ∀ k, e ≠ StartEvent.spawnWorker k) ∧
    (path_exists model_path = true → path_exists input_path = true →
      (call_mods_startup path_exists model_path input_path workerPlan).2 = none) := by
  simp only [call_mods_startup]
  split_ifs with h1 h2 <;> simp_all

theorem claim_C9_witness :
    (call_mods_startup (fun _ => false) "model.ckpt" "features.tsv" [0]).2.isSome :=
  (claim_C9 (fun _ => false) "model.ckpt" "features.tsv" [0]).1.mpr (Or.inl rfl)

/-- Claim C10: on an empty pre-extracted feature file the reader hits
an uncaught `StopIteration` at the first `next(infile)`: it enqueues
nothing — in particular no sentinel — and does not terminate
normally. -/
theorem claim_C10 (F : Nat) :
    read_features_file F [] = ([], false) ∧
      QMsg.kill ∉ (read_features_file F []).1 := by
  exact ⟨rfl, by simp [read_features_file]⟩

theorem callModsGo_preds (model : SampleRec → ℚ × ℚ)
    (code2base_dna : Nat → Char) (batch_size : Nat) (hbs : 1 ≤ batch_size) :
    ∀ (n : Nat) (l : List SampleRec), l.length ≤ n →
      (callModsGo model code2base_dna batch_size l).1 =
        l.map (predOne model code2base_dna) := by
  intro n
  induction n with
  | zero =>
    intro l hl
    rw [List.eq_nil_of_length_eq_zero (Nat.le_zero.mp hl)]
    simp [callModsGo]
  | succ n ih =>
    intro l hl
    match l with
    | [] => simp [callModsGo]
    | r :: rest =>
      rw [callModsGo]
      simp only
      rw [ih (rest.drop (batch_size - 1))
        (by
          rw [List.length_drop]
          have : rest.length ≤ n := by
            simpa [Nat.succ_le_succ_iff] using hl
          omega)]
      rw [← List.map_append]
      congr 1
      rw [List.cons_append, List.take_append_drop]

/-- Claim C1: for every feature batch of `n` records and every
`batch_size ≥ 1`, `_call_mods` returns exactly `n` predictions, one
per input record, and the concatenation of the per-sub-batch outputs
lists them in the input batch's record order (it equals the map of
the per-record derivation over the batch). -/
theorem claim_C1 (model : SampleRec → ℚ × ℚ) (code2base_dna : Nat → Char)
    (features_batch : List SampleRec) (batch_size : Nat)
    (hbs : 1 ≤ batch_size) :
    (call_mods model code2base_dna features_batch batch_size).1 =
        features_batch.map (predOne model code2base_dna) ∧
      (call_mods model code2base_dna features_batch batch_size).1.length =
        features_batch.length := by
  have h := callModsGo_preds model code2base_dna batch_size hbs
    features_batch.length features_batch (Nat.le_refl _)
  refine ⟨h, ?_⟩
  rw [show (call_mods model code2base_dna features_batch batch_size).1 =
    (callModsGo model code2base_dna batch_size features_batch).1 from rfl, h]
  exact List.length_map _ _

theorem claim_C1_witness :
    (call_mods (fun _ => ((3 : ℚ), (1 : ℚ))) (fun _ => 'A')
        [⟨"s1", [], [], [], [], [], 0⟩, ⟨"s2", [], [], [], [], [], 0⟩] 1).1.length
      = 2 :=
  (claim_C1 (fun _ => ((3 : ℚ), (1 : ℚ))) (fun _ => 'A')
    [⟨"s1", [], [], [], [], [], 0⟩, ⟨"s2", [], [], [], [], [], 0⟩] 1
    (by decide)).2

theorem flatten_replicate_get? (l : List α) :
    ∀ (k i : Nat), i < k * l.length →
      ((List.replicate k l).flatten).get? i = l.get? (i % l.length) := by
  intro k
  induction k with
  | zero =>
    intro i h
    simp at h
  | succ k ih =>
    intro i h
    rcases Nat.eq_zero_or_pos l.length with h0 | hpos
    · rw [h0, Nat.mul_zero] at h
      exact absurd h (Nat.not_lt_zero i)
    · rw [List.replicate_succ, List.flatten_cons]
      by_cases hi : i < l.length
      · rw [List.get?_append hi, Nat.mod_eq_of_lt hi]
      · have hge : l.length ≤ i := Nat.not_lt.mp hi
        rw [List.get?_append_right hge]
        rw [ih (i - l.length)
          (by
            have : (k + 1) * l.length = k * l.length + l.length := by ring
            omega)]
        rw [Nat.mod_eq_sub_mod hge]

/-- Claim C7 (counterexample): the claim asserts round-robin for
*every* worker index, but the repeated device list `gpulist * 1000`
is finite: with one discovered device, worker 1000 gets an
`IndexError` (`none`), not device `1000 % 1 = 0`. -/
theorem claim_C7_counterexample :
    gpuOfWorker 1 1000 ≠ some (1000 % 1) := by
  have hlen : (get_gpus 1).length = 1000 := by
    simp only [get_gpus]
    norm_num
  have : gpuOfWorker 1 1000 = none := by
    rw [gpuOfWorker, List.get?_eq_none]
    omega
  rw [this]
  intro hcontra
  exact Option.noConfusion hcontra

/-- Claim C7 (amended): for every worker index `i` within the
1000-fold repetition of the device list — i.e. `i < 1000·d` where
`d` is the number of discovered devices (or `1` when none exist) —
the assigned device id is `i % d`, which is `0` for every worker
when no devices exist; for larger `i` the list index fails. -/
theorem claim_C7 (num_gpus i : Nat)
    (h : i < 1000 * (if num_gpus > 0 then num_gpus else 1)) :
    gpuOfWorker num_gpus i =
      some (i % (if num_gpus > 0 then num_gpus else 1)) := by
  rw [gpuOfWorker, get_gpus]
  by_cases hg : num_gpus > 0
  · simp only [if_pos hg] at h ⊢
    rw [flatten_replicate_get? _ 1000 i
      (by rw [List.length_range]; omega)]
    rw [List.length_range]
    exact List.get?_range (Nat.mod_lt _ hg)
  · simp only [if_neg hg] at h ⊢
    rw [flatten_replicate_get? _ 1000 i (by simpa using h)]
    simp [Nat.mod_one]

theorem claim_C7_witness :
    gpuOfWorker 2 3 = some 1 := by
  have h := claim_C7 2 3 (by norm_num)
  simpa using h

/-! ### C3: the batch-flush law of `_read_features_file` -/

theorem chunksOf_flatten_aux (F : Nat) :
    ∀ (n : Nat) (l : List α), l.length ≤ n → (chunksOf F l).flatten = l := by
  intro n
  induction n with
  | zero =>
    intro l hl
    rw [List.eq_nil_of_length_eq_zero (Nat.le_zero.mp hl)]
    simp [chunksOf]
  | succ n ih =>
    intro l hl
    match l with
    | [] => simp [chunksOf]
    | a :: t =>
      rw [chunksOf]
      rw [List.flatten_cons]
      rw [ih (t.drop (F - 1))
        (by
          rw [List.length_drop]
          have : t.length ≤ n := by
            simpa [Nat.succ_le_succ_iff] using hl
          omega)]
      rw [List.cons_append, List.take_append_drop]

theorem chunksOf_flatten (F : Nat) (l : List α) :
    (chunksOf F l).flatten = l :=
  chunksOf_flatten_aux F l.length l (Nat.le_refl _)

theorem chunksOf_mem_aux (F : Nat) (hF : 1 ≤ F) :
    ∀ (n : Nat) (l : List α), l.length ≤ n →
      ∀ c ∈ chunksOf F l, c ≠ [] ∧ c.length ≤ F := by
  intro n
  induction n with
  | zero =>
    intro l hl c hc
    rw [List.eq_nil_of_length_eq_zero (Nat.le_zero.mp hl)] at hc
    simp [chunksOf] at hc
  | succ n ih =>
    intro l hl c hc
    match l with
    | [] => simp [chunksOf] at hc
    | a :: t =>
      rw [chunksOf] at hc
      rcases List.mem_cons.mp hc with h | h
      · subst h
        refine ⟨by simp, ?_⟩
        simp only [List.length_cons, List.length_take]
        omega
      · exact ih (t.drop (F - 1))
          (by
            rw [List.length_drop]
            have : t.length ≤ n := by
              simpa [Nat.succ_le_succ_iff] using hl
            omega) c h

theorem chunksOf_mem (F : Nat) (hF : 1 ≤ F) (l : List α) :
    ∀ c ∈ chunksOf F l, c ≠ [] ∧ c.length ≤ F :=
  chunksOf_mem_aux F hF l.length l (Nat.le_refl _)

theorem chunksOf_nonlast_aux (F : Nat) (hF : 1 ≤ F) :
    ∀ (n : Nat) (l : List α), l.length ≤ n →
      ∀ i, i + 1 < (chunksOf F l).length →
        ((chunksOf F l).getD i []).length = F := by
  intro n
  induction n with
  | zero =>
    intro l hl i hi
    rw [List.eq_nil_of_length_eq_zero (Nat.le_zero.mp hl)] at hi
    simp [chunksOf] at hi
  | succ n ih =>
    intro l hl i hi
    match l with
    | [] => simp [chunksOf] at hi
    | a :: t =>
      rw [chunksOf] at hi ⊢
      have ht : t.length ≤ n := by
        simpa [Nat.succ_le_succ_iff] using hl
      match i with
      | 0 =>
        simp only [List.getD_cons_zero]
        simp only [List.length_cons] at hi
        have hne : chunksOf F (t.drop (F - 1)) ≠ [] := by
          intro hnil
          rw [hnil] at hi
          simp at hi
        have hlen : F - 1 ≤ t.length := by
          by_contra hcon
          have : t.drop (F - 1) = [] :=
            List.drop_eq_nil_of_le (by omega)
          rw [this] at hne
          exact hne (by simp [chunksOf])
        simp only [List.length_cons, List.length_take]
        omega
      | i + 1 =>
        simp only [List.getD_cons_succ]
        exact ih (t.drop (F - 1))
          (by rw [List.length_drop]; omega) i
          (by simpa using hi)

theorem chunksOf_nonlast (F : Nat) (hF : 1 ≤ F) (l : List α) :
    ∀ i, i + 1 < (chunksOf F l).length →
      ((chunksOf F l).getD i []).length = F :=
  chunksOf_nonlast_aux F hF l.length l (Nat.le_refl _)

theorem chunksOf_of_length_le (F : Nat) {l : List α}
    (hne : l ≠ []) (hlen : l.length ≤ F) : chunksOf F l = [l] := by
  match l with
  | [] => exact absurd rfl hne
  | a :: t =>
    rw [chunksOf]
    have h1 : t.take (F - 1) = t :=
      List.take_of_length_le (by simp at hlen; omega)
    have h2 : t.drop (F - 1) = [] :=
      List.drop_eq_nil_of_le (by simp at hlen; omega)
    rw [h1, h2]
    simp [chunksOf]

theorem chunksOf_append_of_length (F : Nat) {c : List α} (rest : List α)
    (hc : c.length = F) (hF : 1 ≤ F) :
    chunksOf F (c ++ rest) = c :: chunksOf F rest := by
  match c with
  | [] => simp at hc; omega
  | a :: t =>
    rw [List.cons_append, chunksOf]
    have ht : t.length = F - 1 := by simp at hc; omega
    rw [List.take_left' ht, List.drop_left' ht]

theorem splitRuns_flatten_aux :
    ∀ (n : Nat) (l : List FLine), l.length ≤ n → (splitRuns l).flatten = l := by
  intro n
  induction n with
  | zero =>
    intro l hl
    rw [List.eq_nil_of_length_eq_zero (Nat.le_zero.mp hl)]
    simp [splitRuns]
  | succ n ih =>
    intro l hl
    match l with
    | [] => simp [splitRuns]
    | a :: t =>
      rw [splitRuns, List.flatten_cons]
      rw [ih (t.dropWhile fun x => x.rid = a.rid)
        (by
          have h1 := length_dropWhile_le (fun x => decide (x.rid = a.rid)) t
          have : t.length ≤ n := by
            simpa [Nat.succ_le_succ_iff] using hl
          omega)]
      rw [List.cons_append, List.takeWhile_append_dropWhile]

theorem splitRuns_flatten (l : List FLine) : (splitRuns l).flatten = l :=
  splitRuns_flatten_aux l.length l (Nat.le_refl _)

theorem mod_succ_eq_zero_iff {rnum F : Nat} (hF : 1 ≤ F) :
    (rnum + 1) % F = 0 ↔ rnum % F = F - 1 := by
  have hr : rnum % F < F := Nat.mod_lt _ (by omega)
  have key : (rnum + 1) % F = (rnum % F + 1) % F :=
    (Nat.mod_add_mod rnum F 1).symm
  constructor
  · intro h
    rw [key] at h
    rcases Nat.lt_or_ge (rnum % F + 1) F with hlt | hge
    · rw [Nat.mod_eq_of_lt hlt] at h
      omega
    · omega
  · intro h
    rw [key, h]
    have h1 : F - 1 + 1 = F := by omega
    rw [h1, Nat.mod_self]

theorem mod_succ_of_ne {rnum F : Nat} (hF : 1 ≤ F)
    (h : (rnum + 1) % F ≠ 0) : (rnum + 1) % F = rnum % F + 1 := by
  have hr : rnum % F < F := Nat.mod_lt _ (by omega)
  have key : (rnum + 1) % F = (rnum % F + 1) % F :=
    (Nat.mod_add_mod rnum F 1).symm
  rcases Nat.lt_or_ge (rnum % F + 1) F with hlt | hge
  · rw [key, Nat.mod_eq_of_lt hlt]
  · exfalso
    exact h ((mod_succ_eq_zero_iff hF).mpr (by omega))

theorem rffLoop_eq (F : Nat) (hF : 1 ≤ F) :
    ∀ (rest : List FLine) (ridPre : Nat) (pend : List (List FLine))
      (cur : List FLine) (rnum : Nat),
      cur ≠ [] →
      pend.length = rnum % F →
      rffLoop F ridPre (pend.flatten ++ cur) rnum rest =
        (chunksOf F (pend ++
            (cur ++ rest.takeWhile fun x => x.rid = ridPre) ::
              splitRuns (rest.dropWhile fun x => x.rid = ridPre))).map
          (fun c => QMsg.batch c.flatten) ++ [QMsg.kill] := by
  intro rest
  induction rest with
  | nil =>
    intro ridPre pend cur rnum hcur hpend
    rw [rffLoop]
    rw [if_pos (by
      simp only [List.length_append]
      have := List.length_pos.mpr hcur
      omega)]
    simp only [List.takeWhile_nil, List.dropWhile_nil, List.append_nil]
    have hrun : splitRuns [] = [] := by simp [splitRuns]
    rw [hrun]
    have hmod : rnum % F < F := Nat.mod_lt _ (by omega)
    rw [chunksOf_of_length_le F (l := pend ++ [cur])
      (by simp) (by simp [hpend]; omega)]
    simp
  | cons l rest ih =>
    intro ridPre pend cur rnum hcur hpend
    rw [rffLoop]
    by_cases hrid : l.rid = ridPre
    · rw [if_neg (not_not_intro hrid)]
      rw [List.append_assoc]
      rw [ih ridPre pend (cur ++ [l]) rnum (by simp) hpend]
      rw [List.takeWhile_cons_of_pos (by simpa using hrid)]
      rw [List.dropWhile_cons_of_pos (by simpa using hrid)]
      simp [List.append_assoc]
    · rw [if_pos hrid]
      rw [List.takeWhile_cons_of_neg (by simpa using hrid)]
      rw [List.dropWhile_cons_of_neg (by simpa using hrid)]
      rw [List.append_nil]
      rw [splitRuns]
      have hr : rnum % F < F := Nat.mod_lt _ (by omega)
      by_cases hmod : (rnum + 1) % F = 0
      · rw [if_pos hmod]
        have hlast : rnum % F = F - 1 :=
          (mod_succ_eq_zero_iff hF).mp hmod
        have hlenF : (pend ++ [cur]).length = F := by
          simp [hpend]
          omega
        rw [show pend ++ (cur :: ((l :: List.takeWhile (fun x => x.rid = l.rid) rest) ::
              splitRuns (List.dropWhile (fun x => x.rid = l.rid) rest))) =
            (pend ++ [cur]) ++ ((l :: List.takeWhile (fun x => x.rid = l.rid) rest) ::
              splitRuns (List.dropWhile (fun x => x.rid = l.rid) rest)) by
          simp [List.append_assoc]]
        rw [chunksOf_append_of_length F _ hlenF hF]
        have hzero : ([] : List (List FLine)).length = (rnum + 1) % F := by
          simp [hmod]
        have hIH := ih l.rid [] [l] (rnum + 1) (by simp) hzero
        simp only [List.flatten_nil, List.nil_append] at hIH
        rw [hIH]
        simp
      · rw [if_neg hmod]
        have hpend' : (pend ++ [cur]).length = (rnum + 1) % F := by
          rw [mod_succ_of_ne hF hmod]
          simp [hpend]
        have hfl : (pend ++ [cur]).flatten = pend.flatten ++ cur := by simp
        rw [show pend.flatten ++ cur ++ [l] = (pend ++ [cur]).flatten ++ [l] by
          rw [hfl]]
        rw [ih l.rid (pend ++ [cur]) [l] (rnum + 1) (by simp) hpend']
        simp [List.append_assoc]

/-- Claim C3: in pre-extracted-file mode with transfer-batch size
`F ≥ 1`, the reader's queue-message sequence is exactly: one feature
batch per `F` consecutive distinct read-identifier runs (so a batch is
flushed exactly when the `F`-th, `2F`-th, ... run completes, and the
accumulator then restarts), the trailing non-empty partial group
flushed once at end-of-stream, and then the sentinel — i.e. the
messages are `chunksOf F (splitRuns lines)` followed by `kill`.
Moreover the flushed batches together list exactly the input records
in original file order, every batch groups between 1 and `F` runs,
and every non-final batch groups exactly `F` runs. -/
theorem claim_C3 (F : Nat) (hF : 1 ≤ F) (l : FLine) (rest : List FLine) :
    read_features_file F (l :: rest) =
      ((chunksOf F (splitRuns (l :: rest))).map
          (fun c => QMsg.batch c.flatten) ++ [QMsg.kill], true) ∧
      (chunksOf F (splitRuns (l :: rest))).flatten.flatten = l :: rest ∧
      (∀ c ∈ chunksOf F (splitRuns (l :: rest)), c ≠ [] ∧ c.length ≤ F) ∧
      (∀ i, i + 1 < (chunksOf F (splitRuns (l :: rest))).length →
        ((chunksOf F (splitRuns (l :: rest))).getD i []).length = F) := by
  refine ⟨?_, ?_, chunksOf_mem F hF _, chunksOf_nonlast F hF _⟩
  · rw [read_features_file]
    have h := rffLoop_eq F hF rest l.rid [] [l] 0 (by simp) (by simp)
    simp only [List.flatten_nil, List.nil_append] at h
    rw [h, splitRuns]
    simp
  · rw [chunksOf_flatten, splitRuns_flatten]

theorem claim_C3_witness :
    read_features_file 1
        [⟨0, ⟨"", [], [], [], [], [], 0⟩⟩, ⟨1, ⟨"", [], [], [], [], [], 0⟩⟩] =
      ([QMsg.batch [⟨0, ⟨"", [], [], [], [], [], 0⟩⟩],
        QMsg.batch [⟨1, ⟨"", [], [], [], [], [], 0⟩⟩], QMsg.kill], true) := by
  have h := (claim_C3 1 (by decide) ⟨0, ⟨"", [], [], [], [], [], 0⟩⟩
    [⟨1, ⟨"", [], [], [], [], [], 0⟩⟩]).1
  rw [h]
  simp [splitRuns, chunksOf]

/-! ### C6: sentinel fan-out -/

theorem count_set_balance {α : Type} [DecidableEq α] :
    ∀ (l : List α) (i : Nat) (a b c : α), l.get? i = some a →
      (l.set i b).count c + (if a = c then 1 else 0) =
        l.count c + (if b = c then 1 else 0) := by
  intro l
  induction l with
  | nil =>
    intro i a b c h
    simp at h
  | cons x t ih =>
    intro i a b c h
    match i with
    | 0 =>
      simp only [List.get?_cons_zero, Option.some_inj] at h
      subst h
      simp only [List.set_cons_zero, List.count_cons]
      split_ifs <;> simp_all <;> omega
    | i + 1 =>
      simp only [List.get?_cons_succ] at h
      simp only [List.set_cons_succ, List.count_cons]
      have := ih i a b c h
      split_ifs <;> simp_all <;> omega

theorem getD_set_self {α : Type} (l : List α) (i : Nat) (a d : α)
    (h : i < l.length) : (l.set i a).getD i d = a := by
  rw [List.getD_eq_get?, List.get?_set_eq_of_lt _ h]
  rfl

theorem sInv_init (K : Nat) (datas : List Nat) : SInv K (sInit K datas) := by
  refine ⟨by simp [sInit], by simp [sInit], ?_, ?_⟩
  · have h1 : killCount ((datas.map SMsg.data) ++ [SMsg.kill]) = 1 := by
      rw [killCount, List.count_append]
      have : (datas.map SMsg.data).count SMsg.kill = 0 := by
        rw [List.count_eq_zero]
        intro hmem
        obtain ⟨d, _, hd⟩ := List.mem_map.mp hmem
        exact SMsg.noConfusion hd
      rw [this]
      rfl
    have h2 : repostingCount (List.replicate K WSt.running) = 0 := by
      rw [repostingCount, List.count_eq_zero]
      intro hmem
      have := List.eq_of_mem_replicate hmem
      exact WSt.noConfusion this
    simp only [sInit]
    omega
  · intro i hi
    simp only [sInit]
    have hg : (List.replicate K WSt.running).get? i = some WSt.running := by
      simp [List.get?_eq_getElem?, List.getElem?_replicate, hi]
    simp only [hg]
    have hd : (List.replicate K (0 : Nat)).getD i 0 = 0 := by
      simp [List.getD_eq_get?, List.get?_eq_getElem?, List.getElem?_replicate, hi]
    rw [hd]
    simp

theorem sInv_step {K : Nat} {s t : SState}
    (hinv : SInv K s) (hstep : SStep s t) : SInv K t := by
  obtain ⟨hws, hrep, hcount, hper⟩ := hinv
  cases hstep with
  | getData i p rest hw hq =>
    refine ⟨hws, hrep, ?_, hper⟩
    have hk : killCount s.q = killCount rest := by
      rw [hq, killCount, killCount, List.count_cons]
      simp
    simp only at hcount ⊢
    omega
  | getKill i rest hw hq =>
    have hbal := count_set_balance s.ws i WSt.running WSt.reposting
      WSt.reposting hw
    have hk : killCount s.q = killCount rest + 1 := by
      rw [hq, killCount, killCount, List.count_cons]
      simp
    refine ⟨by simpa using hws, by simpa using hrep, ?_, ?_⟩
    · simp only [repostingCount] at hcount ⊢
      simp only [reduceIte] at hbal
      have : (if WSt.running = WSt.reposting then 1 else 0) = 0 := by decide
      rw [this] at hbal
      omega
    · intro j hj
      by_cases hij : j = i
      · subst hij
        have hget : (s.ws.set j WSt.reposting).get? j = some WSt.reposting := by
          obtain ⟨hlt, _⟩ := List.get?_eq_some.mp hw
          exact List.get?_set_eq_of_lt _ hlt
        simp only [hget]
        have h0 := hper j hj
        rw [hw] at h0
        simpa using h0
      · have hget : (s.ws.set i WSt.reposting).get? j = s.ws.get? j :=
          List.get?_set_ne _ _ (fun h => hij h.symm)
        simp only [hget]
        exact hper j hj
  | repostKill i hw =>
    obtain ⟨hlt, _⟩ := List.get?_eq_some.mp hw
    have hltK : i < K := hws ▸ hlt
    have hbal := count_set_balance s.ws i WSt.reposting WSt.done
      WSt.reposting hw
    have hk : killCount (s.q ++ [SMsg.kill]) = killCount s.q + 1 := by
      rw [killCount, killCount, List.count_append]
      rfl
    refine ⟨by simpa using hws, by simpa using hrep, ?_, ?_⟩
    · simp only [repostingCount] at hcount ⊢
      simp only [reduceIte] at hbal
      have h1 : (if WSt.done = WSt.reposting then 1 else 0) = 0 := by decide
      rw [h1] at hbal
      have h2 : s.ws.count WSt.reposting ≥ 1 := by
        have := List.count_pos_iff_mem.mpr (List.get?_mem hw)
        omega
      omega
    · intro j hj
      by_cases hij : j = i
      · subst hij
        have hget : (s.ws.set j WSt.done).get? j = some WSt.done :=
          List.get?_set_eq_of_lt _ hlt
        simp only [hget, reduceIte]
        have h0 := hper j hj
        rw [hw] at h0
        have h00 : s.reposts.getD j 0 = 0 := by simpa using h0
        rw [h00, getD_set_self s.reposts j (0 + 1) 0 (by omega)]
      · have hget : (s.ws.set i WSt.done).get? j = s.ws.get? j :=
          List.get?_set_ne _ _ (fun h => hij h.symm)
        have hgetr : (s.reposts.set i (s.reposts.getD i 0 + 1)).getD j 0 =
            s.reposts.getD j 0 := by
          rw [List.getD_eq_get?, List.get?_set_ne _ _ (fun h => hij h.symm),
            ← List.getD_eq_get?]
        rw [hget, hgetr]
        exact hper j hj

theorem sInv_steps {K : Nat} {datas : List Nat} {s : SState}
    (h : SSteps (sInit K datas) s) : SInv K s := by
  induction h with
  | refl => exact sInv_init K datas
  | tail _ hstep ih => exact sInv_step ih hstep

theorem sProgress {K : Nat} {s : SState} (hinv : SInv K s)
    (hsome : ∃ w ∈ s.ws, w ≠ WSt.done) : ∃ t, SStep s t := by
  obtain ⟨hws, hrep, hcount, hper⟩ := hinv
  by_cases hrepos : ∃ i, s.ws.get? i = some WSt.reposting
  · obtain ⟨i, hi⟩ := hrepos
    exact ⟨_, SStep.repostKill s i hi⟩
  · have h0 : repostingCount s.ws = 0 := by
      rw [repostingCount, List.count_eq_zero]
      intro hmem
      obtain ⟨n, hn⟩ := List.get?_of_mem hmem
      exact hrepos ⟨n, hn⟩
    have hkill : killCount s.q = 1 := by omega
    have hqne : s.q ≠ [] := by
      intro hnil
      rw [hnil] at hkill
      simp [killCount] at hkill
    obtain ⟨w, hwmem, hwne⟩ := hsome
    have hwr : w = WSt.running := by
      cases w with
      | running => rfl
      | reposting =>
        exfalso
        obtain ⟨n, hn⟩ := List.get?_of_mem hwmem
        exact hrepos ⟨n, hn⟩
      | done => exact absurd rfl hwne
    subst hwr
    obtain ⟨i, hi⟩ := List.get?_of_mem hwmem
    obtain ⟨m, rest, hq⟩ := List.exists_cons_of_ne_nil hqne
    cases m with
    | data p => exact ⟨_, SStep.getData s i p rest hi hq⟩
    | kill => exact ⟨_, SStep.getKill s i rest hi hq⟩

theorem sMeasure_decreases {s t : SState} (h : SStep s t) :
    sMeasure t < sMeasure s := by
  cases h with
  | getData i p rest hw hq =>
    simp only [sMeasure, hq, List.countP_cons]
    simp
  | getKill i rest hw hq =>
    have hbalr := count_set_balance s.ws i WSt.running WSt.reposting
      WSt.running hw
    have hbalp := count_set_balance s.ws i WSt.running WSt.reposting
      WSt.reposting hw
    have hcp : s.q.countP (fun m => m ≠ SMsg.kill) =
        rest.countP (fun m => m ≠ SMsg.kill) := by
      rw [hq, List.countP_cons]
      simp
    simp only [sMeasure, hcp] at *
    simp only [reduceIte] at hbalr hbalp
    have e1 : (if WSt.running = WSt.reposting then 1 else 0) = 0 := by decide
    have e2 : (if WSt.reposting = WSt.running then 1 else 0) = 0 := by decide
    rw [e1] at hbalp
    rw [e2] at hbalr
    have hpos : s.ws.count WSt.running ≥ 1 := by
      have := List.count_pos_iff_mem.mpr (List.get?_mem hw)
      omega
    omega
  | repostKill i hw =>
    have hbalr := count_set_balance s.ws i WSt.reposting WSt.done
      WSt.running hw
    have hbalp := count_set_balance s.ws i WSt.reposting WSt.done
      WSt.reposting hw
    have hcp : (s.q ++ [SMsg.kill]).countP (fun m => m ≠ SMsg.kill) =
        s.q.countP (fun m => m ≠ SMsg.kill) := by
      rw [List.countP_append]
      simp
    simp only [sMeasure, hcp]
    simp only [reduceIte] at hbalp
    have e1 : (if WSt.done = WSt.reposting then 1 else 0) = 0 := by decide
    have e2 : (if WSt.reposting = WSt.running then 1 else 0) = 0 := by decide
    have e3 : (if WSt.done = WSt.running then 1 else 0) = 0 := by decide
    rw [e1] at hbalp
    rw [e2, e3] at hbalr
    have hpos : s.ws.count WSt.reposting ≥ 1 := by
      have := List.count_pos_iff_mem.mpr (List.get?_mem hw)
      omega
    omega

/-- Claim C6: starting from one sentinel push onto a queue shared by K
sibling consumers (each running the dequeue loop of `_call_mods_q` /
`_read_features_fast5s_q`), along every reachable state: exactly one
sentinel is in flight (queued, or held by a consumer between its
`get` of `"kill"` and its re-`put`), so the queue is sentinel-free
only transiently while some consumer is about to re-push; a consumer
has exited iff it has re-pushed the sentinel exactly once; whenever
any consumer has not yet terminated some step is possible, and every
step strictly decreases a finite measure — hence every maximal run
ends with all K consumers having observed the sentinel and
terminated. -/
theorem claim_C6 (K : Nat) (datas : List Nat) (s : SState)
    (h : SSteps (sInit K datas) s) :
    (killCount s.q + repostingCount s.ws = 1) ∧
    (repostingCount s.ws = 0 → killCount s.q = 1) ∧
    (∀ i, i < K →
      (s.ws.get? i = some WSt.done ↔ s.reposts.getD i 0 = 1)) ∧
    ((¬ ∃ t, SStep s t) → ∀ w ∈ s.ws, w = WSt.done) ∧
    (∀ t, SStep s t → sMeasure t < sMeasure s) := by
  have hinv := sInv_steps h
  obtain ⟨hws, hrep, hcount, hper⟩ := hinv
  refine ⟨hcount, fun h0 => by omega, ?_, ?_, fun t ht => sMeasure_decreases ht⟩
  · intro i hi
    constructor
    · intro hd
      have := hper i hi
      rw [hd] at this
      simpa using this
    · intro hr
      have := hper i hi
      by_contra hnd
      rw [if_neg hnd] at this
      omega
  · intro hterm w hwmem
    by_contra hne
    exact hterm (sProgress ⟨hws, hrep, hcount, hper⟩ ⟨w, hwmem, hne⟩)

theorem claim_C6_witness :
    killCount (sInit 1 []).q + repostingCount (sInit 1 []).ws = 1 :=
  (claim_C6 1 [] (sInit 1 []) (SSteps.refl _)).1

end DeepsignalPlant
